import Mathlib

/-!
Verification of the fixed-point quantization, weight-packing and
memory-image parsing pipeline of the `dataprosjekt-gr2-FPGA` repository.

The Lean definitions below are shallow embeddings of the Python source:

* `CNN.py` (`quantize_to_q1_6`, the Conv2D/Dense packing loops of
  `export_to_FPGA` and the COE serialisation they perform),
* `check_coe_packing.py` (`parse_coe`, `hexword_to_bytes`, `to_signed8`),
* `compute_fc1_manual.py` (`coe_address_bytes`, `compute_neuron`),
* `compute_expected_conv.py` (the expected-value accumulation loop),
* `calc_conv2.py` (the missing-address zero padding),
* `debug_comparison.py` (`parse_sim_output_file`, the dense-layer block
  selection of `compare_outputs`).

Strings are modelled as `List Char`, Python ints as `ℤ`/`ℕ` and floats as
`ℚ` (every arithmetic step performed by the scripts on the values in scope
is exact in binary floating point: the clamp bounds and the scale 64 are
powers of two, so modelling by rationals is bit-exact).
-/

namespace FPGA

/-! ### Hexadecimal characters and tokens -/

/-- Value of an ASCII hex digit, as recognised by Python's regex class
`[0-9A-Fa-f]` and by `int(-, 16)` on plain digit strings. -/
def hexCharVal? (c : Char) : Option ℕ :=
  if 48 ≤ c.toNat ∧ c.toNat ≤ 57 then some (c.toNat - 48)
  else if 65 ≤ c.toNat ∧ c.toNat ≤ 70 then some (c.toNat - 55)
  else if 97 ≤ c.toNat ∧ c.toNat ≤ 102 then some (c.toNat - 87)
  else none

/-- Test used to embed the regex substitution `re.sub(r'[^0-9A-Fa-f]', '', token)`. -/
def isHexDigitChar (c : Char) : Bool :=
  decide (48 ≤ c.toNat ∧ c.toNat ≤ 57) || decide (65 ≤ c.toNat ∧ c.toNat ≤ 70)
    || decide (97 ≤ c.toNat ∧ c.toNat ≤ 102)

/-- Uppercase hex digit, as produced by Python's `%X` formatting. -/
def hexDigitChar (n : ℕ) : Char :=
  if n < 10 then Char.ofNat (48 + n) else Char.ofNat (55 + n)

/-- Zero-padded uppercase hex rendering of `n` on exactly `w` digits,
embedding Python's `f"{n:0{w}X}"`.  The f-string never truncates; the padded
words written by `export_to_FPGA` always satisfy `n < 16 ^ w`
(`packWord_lt_16_pow` below), where the two renderings agree. -/
def digitsBE : ℕ → ℕ → List Char
  | _, 0 => []
  | n, w + 1 => digitsBE (n / 16) w ++ [hexDigitChar (n % 16)]

/-- Accumulating hex parser; `none` on the first non-digit character,
matching the `ValueError` of `int(s, 16)`. -/
def parseHexAux : ℕ → List Char → Option ℕ
  | acc, [] => some acc
  | acc, c :: cs =>
    match hexCharVal? c with
    | none => none
    | some d => parseHexAux (acc * 16 + d) cs

/-- Embedding of `int(s, 16)` on stripped tokens: fails on the empty string
and on any non-hex-digit character.  (Python additionally tolerates a sign
and underscores; the tokens handled by these scripts are bare digit runs,
where the two agree, and both reject the counterexamples used below.) -/
def parseHexNat (l : List Char) : Option ℕ :=
  if l.isEmpty then none else parseHexAux 0 l

/-! ### Packed words (export_to_FPGA inner loops) -/

/-- Python's `int(qw) & 0xFF` on a signed quantized weight. -/
def byte_value (z : ℤ) : ℕ := (z % 256).toNat

/-- Embedding of the packing loop of `export_to_FPGA`:
`for f_idx in range(n): packed_value |= byte << ((n - 1 - f_idx) * 8)`
with `n = num_filters` (or `num_outputs`), MSB-first. -/
def packWord (bytes : List ℕ) : ℕ :=
  (List.range bytes.length).foldl
    (fun packed f => packed ||| (bytes.getD f 0) <<< ((bytes.length - 1 - f) * 8)) 0

/-- Big-endian (MSB-first) value of a byte list; the arithmetic reading of
`packWord`, used to reason about it. -/
def beVal : List ℕ → ℕ
  | [] => 0
  | b :: bs => b * 2 ^ (8 * bs.length) + beVal bs

theorem pow_split_8 (a : ℕ) : 2 ^ (a + 8) = 2 ^ a * 256 := by
  rw [pow_add]; norm_num

theorem beVal_lt (l : List ℕ) (h : ∀ b ∈ l, b < 256) : beVal l < 2 ^ (8 * l.length) := by
  induction l with
  | nil => simp [beVal]
  | cons b bs ih =>
    have hb : b < 256 := h b (by simp)
    have hbs := ih (fun x hx => h x (by simp [hx]))
    have step1 : beVal (b :: bs) < (b + 1) * 2 ^ (8 * bs.length) := by
      show b * 2 ^ (8 * bs.length) + beVal bs < (b + 1) * 2 ^ (8 * bs.length)
      rw [Nat.add_mul, Nat.one_mul]
      exact Nat.add_lt_add_left hbs _
    have step2 : (b + 1) * 2 ^ (8 * bs.length) ≤ 256 * 2 ^ (8 * bs.length) :=
      Nat.mul_le_mul_right _ hb
    have step3 : 256 * 2 ^ (8 * bs.length) = 2 ^ (8 * (b :: bs).length) := by
      rw [List.length_cons, show 8 * (bs.length + 1) = 8 * bs.length + 8 by ring,
        pow_split_8]
      ring
    omega

theorem beVal_append_singleton (l : List ℕ) (b : ℕ) :
    beVal (l ++ [b]) = 256 * beVal l + b := by
  induction l with
  | nil => simp [beVal]
  | cons x xs ih =>
    show x * 2 ^ (8 * (xs ++ [b]).length) + beVal (xs ++ [b])
        = 256 * (x * 2 ^ (8 * xs.length) + beVal xs) + b
    rw [ih, List.length_append, List.length_cons, List.length_nil,
      show 8 * (xs.length + (0 + 1)) = 8 * xs.length + 8 by ring, pow_split_8]
    ring

theorem packWord_eq_beVal (bytes : List ℕ) (h : ∀ b ∈ bytes, b < 256) :
    packWord bytes = beVal bytes := by
  have key : ∀ k, k ≤ bytes.length →
      (List.range k).foldl
        (fun packed f => packed ||| (bytes.getD f 0) <<< ((bytes.length - 1 - f) * 8)) 0
        = beVal (bytes.take k) * 2 ^ (8 * (bytes.length - k)) := by
    intro k hk
    induction k with
    | zero => simp [beVal]
    | succ k ih =>
      have hk' : k ≤ bytes.length := Nat.le_of_succ_le hk
      have hklt : k < bytes.length := hk
      rw [List.range_succ, List.foldl_append, ih hk']
      have hget : bytes.getD k 0 = bytes[k] := by
        simp [List.getD_eq_getElem?_getD, List.getElem?_eq_getElem hklt]
      have htake : bytes.take (k + 1) = bytes.take k ++ [bytes[k]] := by
        rw [List.take_succ, List.getElem?_eq_getElem hklt]
        rfl
      have hblt : bytes.getD k 0 < 256 := by
        rw [hget]; exact h _ (List.getElem_mem hklt)
      simp only [List.foldl_cons, List.foldl_nil]
      rw [htake, beVal_append_singleton, hget, Nat.shiftLeft_eq]
      have hshift : (bytes.length - 1 - k) * 8 = 8 * (bytes.length - (k + 1)) := by omega
      have hsplit : 8 * (bytes.length - k) = 8 * (bytes.length - (k + 1)) + 8 := by omega
      rw [hshift, hsplit]
      generalize 8 * (bytes.length - (k + 1)) = s
      -- the byte lanes are disjoint, so the bitwise or is an addition
      have hblt2 : bytes[k] * 2 ^ s < 2 ^ (s + 8) := by
        have hb' : bytes[k] < 256 := by rw [← hget]; exact hblt
        have hpos : (0 : ℕ) < 2 ^ s := Nat.pos_pow_of_pos s (by norm_num)
        have h1 : bytes[k] * 2 ^ s < 256 * 2 ^ s := mul_lt_mul_of_pos_right hb' hpos
      -- reassociate 256 * 2 ^ s into 2 ^ (s + 8)
        rw [pow_split_8]; omega
      have hor := Nat.mul_add_lt_is_or hblt2 (beVal (bytes.take k))
      rw [Nat.mul_comm (beVal (bytes.take k)) (2 ^ (s + 8)), ← hor, pow_split_8]
      ring
  have := key bytes.length (le_refl _)
  simpa [packWord, List.take_length] using this

theorem packWord_lt (bytes : List ℕ) (h : ∀ b ∈ bytes, b < 256) :
    packWord bytes < 2 ^ (8 * bytes.length) := by
  rw [packWord_eq_beVal bytes h]; exact beVal_lt bytes h

/-- Byte extraction: dividing the packed word by `2 ^ (8 * (n - 1 - f))` and
reducing mod 256 recovers the byte packed MSB-first at index `f`. -/
theorem beVal_extract (l : List ℕ) (h : ∀ b ∈ l, b < 256) :
    ∀ f, f < l.length → beVal l / 2 ^ (8 * (l.length - 1 - f)) % 256 = l.getD f 0 := by
  induction l with
  | nil => intro f hf; simp at hf
  | cons b bs ih =>
    intro f hf
    match f with
    | 0 =>
      have hb : b < 256 := h b (by simp)
      have hbs : beVal bs < 2 ^ (8 * bs.length) := beVal_lt bs (fun x hx => h x (by simp [hx]))
      have hlen : (b :: bs).length - 1 - 0 = bs.length := by simp
      rw [hlen]
      show (b * 2 ^ (8 * bs.length) + beVal bs) / 2 ^ (8 * bs.length) % 256 = b
      rw [Nat.add_comm, Nat.add_mul_div_right _ _ (Nat.pos_pow_of_pos _ (by norm_num)),
        Nat.div_eq_of_lt hbs]
      simp [Nat.mod_eq_of_lt hb]
    | f + 1 =>
      have hfbs : f < bs.length := by simpa using hf
      have hbs : ∀ x ∈ bs, x < 256 := fun x hx => h x (by simp [hx])
      have hlen : (b :: bs).length - 1 - (f + 1) = bs.length - 1 - f := by
        simp only [List.length_cons]; omega
      rw [hlen]
      set s : ℕ := 8 * (bs.length - 1 - f) with hs
      have hsplit : 8 * bs.length = s + 8 * (f + 1) := by
        simp only [hs]; omega
      show (b * 2 ^ (8 * bs.length) + beVal bs) / 2 ^ s % 256 = (b :: bs).getD (f + 1) 0
      have hdiv : (b * 2 ^ (8 * bs.length) + beVal bs) / 2 ^ s
          = b * 2 ^ (8 * (f + 1)) + beVal bs / 2 ^ s := by
        rw [hsplit, Nat.pow_add, Nat.add_comm]
        rw [show b * (2 ^ s * 2 ^ (8 * (f + 1))) = b * 2 ^ (8 * (f + 1)) * 2 ^ s by ring]
        rw [Nat.add_mul_div_right _ _ (Nat.pos_pow_of_pos _ (by norm_num))]
        ring
      rw [hdiv]
      have h8 : 8 * (f + 1) = 8 * f + 8 := by ring
      have : b * 2 ^ (8 * (f + 1)) = b * 2 ^ (8 * f) * 256 := by
        rw [h8, Nat.pow_add]; ring
      rw [this, Nat.add_comm, Nat.add_mul_mod_self_right]
      have := ih hbs f hfbs
      rw [← hs] at this
      simpa using this

theorem hexCharVal_hexDigitChar (n : ℕ) (h : n < 16) :
    hexCharVal? (hexDigitChar n) = some n := by
  interval_cases n <;> rfl

theorem isHexDigitChar_hexDigitChar (n : ℕ) (h : n < 16) :
    isHexDigitChar (hexDigitChar n) = true := by
  interval_cases n <;> rfl

theorem digitsBE_length (n w : ℕ) : (digitsBE n w).length = w := by
  induction w generalizing n with
  | zero => rfl
  | succ w ih => simp [digitsBE, ih]

theorem digitsBE_mem_hex (n w : ℕ) : ∀ c ∈ digitsBE n w, isHexDigitChar c = true := by
  induction w generalizing n with
  | zero => intro c hc; simp [digitsBE] at hc
  | succ w ih =>
    intro c hc
    simp only [digitsBE, List.mem_append, List.mem_singleton] at hc
    rcases hc with hc | hc
    · exact ih _ c hc
    · subst hc; exact isHexDigitChar_hexDigitChar _ (Nat.mod_lt _ (by norm_num))

theorem parseHexAux_append (acc : ℕ) (l₁ l₂ : List Char) :
    parseHexAux acc (l₁ ++ l₂) =
      match parseHexAux acc l₁ with
      | none => none
      | some a => parseHexAux a l₂ := by
  induction l₁ generalizing acc with
  | nil => rfl
  | cons c cs ih =>
    simp only [List.cons_append, parseHexAux]
    cases hexCharVal? c with
    | none => rfl
    | some d => exact ih _

theorem parseHexAux_digitsBE (acc n w : ℕ) (h : n < 16 ^ w) :
    parseHexAux acc (digitsBE n w) = some (acc * 16 ^ w + n) := by
  induction w generalizing acc n with
  | zero =>
    have hn : n = 0 := by simpa using h
    subst hn
    simp [digitsBE, parseHexAux]
  | succ w ih =>
    have hdiv : n / 16 < 16 ^ w := by
      rw [Nat.div_lt_iff_lt_mul (by norm_num)]
      calc n < 16 ^ (w + 1) := h
        _ = 16 ^ w * 16 := by rw [pow_succ]
    rw [digitsBE, parseHexAux_append, ih _ _ hdiv]
    show parseHexAux (acc * 16 ^ w + n / 16) [hexDigitChar (n % 16)] = some (acc * 16 ^ (w + 1) + n)
    simp only [parseHexAux, hexCharVal_hexDigitChar _ (Nat.mod_lt n (by norm_num))]
    congr 1
    have hmod := Nat.div_add_mod n 16
    calc (acc * 16 ^ w + n / 16) * 16 + n % 16
        = acc * (16 ^ w * 16) + (16 * (n / 16) + n % 16) := by ring
      _ = acc * 16 ^ (w + 1) + n := by rw [hmod, pow_succ]

theorem parseHexNat_digitsBE (n w : ℕ) (hw : 1 ≤ w) (h : n < 16 ^ w) :
    parseHexNat (digitsBE n w) = some n := by
  have hne : (digitsBE n w).isEmpty = false := by
    cases hlen : digitsBE n w with
    | nil =>
      have := digitsBE_length n w
      rw [hlen] at this
      simp at this
      omega
    | cons a as => rfl
  simp only [parseHexNat, hne, Bool.false_eq_true, if_false]
  simpa using parseHexAux_digitsBE 0 n w h

/-! ### Q1.6 quantization (CNN.py, `export_to_FPGA` / `apply_manual_quantization`) -/

/-- CNN.py: `scale_factor = 2 ** fractional_bits` with `fractional_bits = 6`. -/
def qscale : ℚ := 64

/-- CNN.py: `max_value = 2.0 - (1.0 / scale_factor)`. -/
def q16_max : ℚ := 2 - 1 / qscale

/-- CNN.py: `min_value = -2.0`. -/
def q16_min : ℚ := -2

/-- Embedding of `np.round`: round to nearest, ties to even (IEEE-754
`roundTiesToEven`, which is what NumPy implements). -/
def npRound (q : ℚ) : ℤ :=
  if q - ⌊q⌋ < 1 / 2 then ⌊q⌋
  else if 1 / 2 < q - ⌊q⌋ then ⌊q⌋ + 1
  else if ⌊q⌋ % 2 = 0 then ⌊q⌋ else ⌊q⌋ + 1

/-- Embedding of `np.clip(value, lo, hi) = np.minimum(hi, np.maximum(value, lo))`. -/
def npClip (v lo hi : ℚ) : ℚ := min hi (max v lo)

/-- `quantize_to_q1_6` from `export_to_FPGA`: clamp to the Q1.6 range, scale
by 64 and round with `np.round`.  All steps are exact in float64 (the bounds
and scale are powers of two), so the rational model is bit-exact. -/
def quantize_to_q1_6 (v : ℚ) : ℤ := npRound (npClip v q16_min q16_max * qscale)

/-- Dequantization `quantized_int / scale_factor` (`apply_manual_quantization`). -/
def dequantize_q1_6 (z : ℤ) : ℚ := (z : ℚ) / qscale

theorem npRound_dist (q : ℚ) : |(npRound q : ℚ) - q| ≤ 1 / 2 := by
  have hfl : (⌊q⌋ : ℚ) ≤ q := Int.floor_le q
  have hfu : q < ⌊q⌋ + 1 := Int.lt_floor_add_one q
  unfold npRound
  split_ifs with h1 h2 h3 <;>
    (rw [abs_le]; push_cast; constructor <;> linarith)

theorem npRound_range (q : ℚ) (hlo : -128 ≤ q) (hhi : q ≤ 127) :
    -128 ≤ npRound q ∧ npRound q ≤ 127 := by
  have hd := npRound_dist q
  rw [abs_le] at hd
  have h1 : (-129 : ℚ) < (npRound q : ℚ) := by linarith
  have h2 : (npRound q : ℚ) < 128 := by linarith
  have h1' : (-129 : ℤ) < npRound q := by exact_mod_cast h1
  have h2' : npRound q < 128 := by exact_mod_cast h2
  omega

theorem npClip_mem (v : ℚ) :
    q16_min ≤ npClip v q16_min q16_max ∧ npClip v q16_min q16_max ≤ q16_max := by
  constructor
  · exact le_min (by norm_num [q16_min, q16_max, qscale]) (le_max_right _ _)
  · exact min_le_left _ _

/-- C2: for every value `v`, `quantize_to_q1_6 v` lies in `[-128, 127]`;
dequantizing the quantized value lands within `1/128` of the clamped input
`clamp(v, -2.0, 1.984375)`; and the saturation boundaries hold:
`quantize(2.0) = 127` and `quantize(-2.0) = -128`. -/
theorem C2_quantization_boundedness_and_saturation :
    ∀ v : ℚ,
      (-128 ≤ quantize_to_q1_6 v ∧ quantize_to_q1_6 v ≤ 127) ∧
      |dequantize_q1_6 (quantize_to_q1_6 v) - npClip v q16_min q16_max| ≤ 1 / 128 ∧
      quantize_to_q1_6 2 = 127 ∧ quantize_to_q1_6 (-2) = -128 := by
  intro v
  obtain ⟨hc1, hc2⟩ := npClip_mem v
  set c := npClip v q16_min q16_max with hcdef
  have hc1' : (-2 : ℚ) ≤ c := by rw [q16_min] at hc1; exact hc1
  have hc2' : c ≤ 127 / 64 := by rw [q16_max, qscale] at hc2; linarith
  have hlo : (-128 : ℚ) ≤ c * qscale := by rw [qscale]; linarith
  have hhi : c * qscale ≤ 127 := by rw [qscale]; linarith
  have hquant : quantize_to_q1_6 v = npRound (c * qscale) := by
    rw [quantize_to_q1_6, ← hcdef]
  refine ⟨?_, ?_, ?_, ?_⟩
  · rw [hquant]; exact npRound_range _ hlo hhi
  · rw [hquant, dequantize_q1_6]
    have hd := npRound_dist (c * qscale)
    rw [abs_le] at hd ⊢
    rw [qscale] at hd ⊢
    constructor <;> [linarith [hd.1]; linarith [hd.2]]
  · norm_num [quantize_to_q1_6, npClip, q16_min, q16_max, qscale, npRound]
  · norm_num [quantize_to_q1_6, npClip, q16_min, q16_max, qscale, npRound]

/-- C3 counterexample: `v = 0.0078125 = 1/128` has clamped, scaled value
exactly `1/2`, and `np.round` sends it to the even neighbour `0`, not to `1`
as the ties-away-from-zero rule of the claim would require. -/
theorem C3_counterexample :
    quantize_to_q1_6 (1 / 128) = 0 ∧ quantize_to_q1_6 (1 / 128) ≠ 1 := by
  constructor <;>
    norm_num [quantize_to_q1_6, npClip, q16_min, q16_max, qscale, npRound]

/-- C3 amended: when the clamped, scale-multiplied value falls exactly
halfway between two integers (`k + 1/2`), `quantize_to_q1_6` rounds the half
point to the even neighbour (`np.round` semantics), not away from zero; so
`quantize(1/128) = 0` and `quantize(-1/128) = 0`. -/
theorem C3_amended (v : ℚ) (k : ℤ)
    (h : npClip v q16_min q16_max * qscale = k + 1 / 2) :
    quantize_to_q1_6 v = if k % 2 = 0 then k else k + 1 := by
  unfold quantize_to_q1_6
  rw [h]
  unfold npRound
  have hfloor : ⌊(k : ℚ) + 1 / 2⌋ = k := by
    rw [Int.floor_int_add]
    norm_num
  rw [hfloor]
  have hr : (k : ℚ) + 1 / 2 - k = 1 / 2 := by ring
  rw [hr]
  norm_num

/-- C3 amended, witness: at `v = 3/128` the scaled value is `3/2`, and the
code rounds to the even neighbour `2`. -/
theorem C3_amended_witness : quantize_to_q1_6 (3 / 128) = 2 := by
  have h := C3_amended (3 / 128) 1 (by norm_num [npClip, q16_min, q16_max, qscale])
  simpa using h

/-! ### Reference dense arithmetic (compute_fc1_manual.py) -/

/-- Layer constant of compute_fc1_manual.py: `N_INPUTS = 5 * 5 * 16`. -/
def N_INPUTS : ℕ := 400

/-- Layer constant of compute_fc1_manual.py: `Q_SCALE = 64`. -/
def Q_SCALE : ℤ := 64

/-- Rounding step of `compute_neuron`:
`int((acc + (Q_SCALE // 2 if acc >= 0 else -Q_SCALE // 2)) // Q_SCALE)`.
Python `//` is floor division, embedded as `Int.fdiv`. -/
def fc1_round (acc : ℤ) : ℤ :=
  Int.fdiv (acc + (if 0 ≤ acc then Int.fdiv Q_SCALE 2 else Int.fdiv (-Q_SCALE) 2)) Q_SCALE

/-- Weight column built by `compute_neuron`: for each `i in range(N_INPUTS)`,
`weights_addrs[i][neuron]` when both indices exist, else `0` (the code's
explicit zero-fill fallbacks). -/
def fc1_w_col (neuron : ℕ) (weights_addrs : List (List ℤ)) : List ℤ :=
  (List.range N_INPUTS).map fun i =>
    match weights_addrs.get? i with
    | some addr => addr.getD neuron 0
    | none => 0

/-- Accumulator of `compute_neuron`:
`acc = Σ x*w over zip(inputs, w_col)` then `acc_with_bias = acc + bias * Q_SCALE`
with `bias = biases[neuron] if neuron < len(biases) else 0`. -/
def fc1_acc_with_bias (neuron : ℕ) (inputs : List ℤ) (weights_addrs : List (List ℤ))
    (biases : List ℤ) : ℤ :=
  (List.zipWith (· * ·) inputs (fc1_w_col neuron weights_addrs)).sum
    + biases.getD neuron 0 * Q_SCALE

/-- `compute_neuron` from compute_fc1_manual.py; returns
`(acc_with_bias, final_round, q)` where `q` is the ReLU'd, int8-saturated
Q1.6 value: `q = max(0, max(-128, min(127, final_round)))`. -/
def compute_neuron (neuron : ℕ) (inputs : List ℤ) (weights_addrs : List (List ℤ))
    (biases : List ℤ) : ℤ × ℤ × ℤ :=
  (fc1_acc_with_bias neuron inputs weights_addrs biases,
   fc1_round (fc1_acc_with_bias neuron inputs weights_addrs biases),
   max 0 (max (-128) (min 127 (fc1_round (fc1_acc_with_bias neuron inputs weights_addrs biases)))))

/-- Modelled from the spec: the canonical `round_shift(accumulator, shift_bits)`
of §4.1 — add half the divisor `2^(shift_bits-1)`, then arithmetic right shift
by `shift_bits` (an arithmetic right shift is floor division by `2^shift_bits`).
This definition follows the spec's words and is compared against the source's
`fc1_round`. -/
def round_shift_spec (acc : ℤ) (shift_bits : ℕ) : ℤ :=
  Int.fdiv (acc + 2 ^ (shift_bits - 1)) (2 ^ shift_bits)

/-- C5 counterexample: at accumulator `-8` (the §8 example) the code's
rounding gives `-1` (`(-8 - 32) // 64` floors to `-1`), while the claimed
add-half-then-arithmetic-shift gives `(-8 + 32) >> 6 = 0`. -/
theorem C5_counterexample :
    fc1_round (-8) = -1 ∧ round_shift_spec (-8) 6 = 0 ∧
      fc1_round (-8) ≠ round_shift_spec (-8) 6 := by
  refine ⟨by decide, by decide, by decide⟩

/-- C5 amended: on the §8 example (inputs `[1..9]`, weights
`[1,0,-1,2,0,-2,1,0,-1]`, bias `0`) the accumulator is `-8`, the code's
rounded value is `-1` (not `0`), and the ReLU'd output is `0`; the code's
rounding equals the canonical add-half-then-arithmetic-shift exactly on
non-negative accumulators (for negative ones it subtracts half and floors). -/
theorem C5_amended :
    compute_neuron 0 [1, 2, 3, 4, 5, 6, 7, 8, 9]
        [[1], [0], [-1], [2], [0], [-2], [1], [0], [-1]] [0] = (-8, -1, 0) ∧
      ∀ acc : ℤ, 0 ≤ acc → fc1_round acc = round_shift_spec acc 6 := by
  constructor
  · decide
  · intro acc h
    rw [fc1_round, round_shift_spec, if_pos h,
      show Int.fdiv Q_SCALE 2 = 32 from by decide,
      show Q_SCALE = 64 from rfl]
    norm_num

/-- C5 amended, witness at accumulator `5`. -/
theorem C5_amended_witness : fc1_round 5 = round_shift_spec 5 6 :=
  C5_amended.2 5 (by decide)

/-! ### Expected convolution outputs (compute_expected_conv.py) -/

/-- The nine 64-bit COE words hard-coded in compute_expected_conv.py. -/
def conv_hex_words : List ℕ :=
  [0x17E804F706F7F8F5, 0x16F614FC09EFED0E, 0x10FA19F6F0EFFEF5,
   0x020512F31615F116, 0x0E01FDF813FD0508, 0xF6FB11FDE9040405,
   0x04130211140604FE, 0xE711FF08FC0C0D0A, 0xEB05FC07F401F4F2]

/-- Biases as exported (hex bytes `00,09,00,00,07,00,00,04`). -/
def conv_biases : List ℤ := [0x00, 0x09, 0x00, 0x00, 0x07, 0x00, 0x00, 0x04]

/-- Inputs for output position `[0,1]` in compute_expected_conv.py. -/
def conv_inputs : List ℤ := [2, 3, 4, 3, 4, 5, 4, 5, 6]

/-- Unsigned byte `i` of a 64-bit word, big-endian: `(w >> ((7 - i) * 8)) & 0xFF`. -/
def word_byte_be_raw (w : ℕ) (i : ℕ) : ℕ := (w >>> ((7 - i) * 8)) &&& 0xFF

/-- Signed byte `i` of a 64-bit word, big-endian interpretation:
`b - 256 if b > 127 else b` (the `weights_be` loop of
compute_expected_conv.py). -/
def word_byte_be (w : ℕ) (i : ℕ) : ℤ :=
  if word_byte_be_raw w i > 127 then (word_byte_be_raw w i : ℤ) - 256
  else (word_byte_be_raw w i : ℤ)

/-- Big-endian accumulation `s = Σ w * inputs[k]` over the nine kernel
positions for filter `f` (the `expected_be` loop, before the bias add). -/
def conv_acc_be (f : ℕ) : ℤ :=
  ((List.range 9).map fun k =>
    word_byte_be (conv_hex_words.getD k 0) f * conv_inputs.getD k 0).sum

/-- The published expected value: the accumulation plus the raw bias
(`s += biases[f_idx]` — with no `* 64` rescaling). -/
def conv_expected_be (f : ℕ) : ℤ := conv_acc_be f + conv_biases.getD f 0

/-- C6 counterexample: for filter 4 of the conv expected-value script the
bias (raw value `7`) is added unscaled; the claimed `bias * 64` rule would
give a different expected output. -/
theorem C6_counterexample :
    conv_expected_be 4 = conv_acc_be 4 + 7 ∧
      conv_expected_be 4 ≠ conv_acc_be 4 + 7 * 64 := by
  refine ⟨by decide, by decide⟩

/-- C6 amended: the dense reference (`compute_neuron`) rescales the raw bias
by `* Q_SCALE = 64` before the rounding shift — its accumulator (a sum of
Q1.6-raw × Q1.6-raw products at squared scale) shifts by exactly
`64 * bias` when a bias is supplied; the convolution expected-value script
instead adds the raw bias with no rescaling (its inputs are unscaled pixel
integers and it applies no rounding shift). -/
theorem C6_amended :
    (∀ (n : ℕ) (inputs : List ℤ) (w : List (List ℤ)) (biases : List ℤ),
        (compute_neuron n inputs w biases).1
          = (compute_neuron n inputs w []).1 + 64 * biases.getD n 0) ∧
      ∀ f : ℕ, conv_expected_be f = conv_acc_be f + conv_biases.getD f 0 := by
  constructor
  · intro n inputs w biases
    show fc1_acc_with_bias n inputs w biases
        = fc1_acc_with_bias n inputs w [] + 64 * biases.getD n 0
    unfold fc1_acc_with_bias
    simp [Q_SCALE]
    ring
  · intro f
    rfl

/-- C7 counterexample: with a nonempty input vector but an empty weight list
and empty bias list (a fan-in/fan-out shape mismatch), the engine does not
report an error — it computes an output from zero-filled weights. -/
theorem C7_counterexample : compute_neuron 0 [5] [] [] = (0, 0, 0) := by decide

theorem getD_replicate_zero (m n : ℕ) : (List.replicate m (0 : ℤ)).getD n 0 = 0 := by
  induction m generalizing n with
  | zero => simp [List.getD]
  | succ m ih =>
    cases n with
    | zero => simp [List.replicate_succ, List.getD_cons_zero]
    | succ n => simp only [List.replicate_succ, List.getD_cons_succ]; exact ih n

/-- C7 amended: the engine never rejects mismatched shapes; missing weight
addresses, missing per-neuron weight entries and missing biases are all read
as `0`, so running with an empty weight list is indistinguishable from
running with explicit all-zero weights. -/
theorem C7_amended :
    ∀ (n : ℕ) (inputs : List ℤ) (biases : List ℤ),
      compute_neuron n inputs [] biases
        = compute_neuron n inputs (List.replicate 400 (List.replicate 64 0)) biases := by
  intro n inputs biases
  have hw : fc1_w_col n [] = fc1_w_col n (List.replicate 400 (List.replicate 64 0)) := by
    unfold fc1_w_col
    apply List.map_congr_left
    intro i hi
    have hi' : i < 400 := List.mem_range.mp hi
    show (match ([] : List (List ℤ)).get? i with
          | some addr => addr.getD n 0
          | none => 0)
        = (match (List.replicate 400 (List.replicate 64 (0 : ℤ))).get? i with
          | some addr => addr.getD n 0
          | none => 0)
    rw [show ([] : List (List ℤ)).get? i = none from rfl,
      show (List.replicate 400 (List.replicate 64 (0 : ℤ))).get? i
          = some (List.replicate 64 0) from by
        rw [List.get?_eq_getElem?, List.getElem?_replicate, if_pos hi']]
    show (0 : ℤ) = (List.replicate 64 (0 : ℤ)).getD n 0
    rw [getD_replicate_zero]
  unfold compute_neuron fc1_acc_with_bias
  rw [hw]

/-! ### Simulation trace parser (debug_comparison.py, `parse_sim_output_file`)

The regexes of `parse_sim_output_file` classify each text line into one of a
few shapes; the embedding works on pre-classified lines and reproduces the
loop's control flow exactly, including the nesting of the FC1/FC2 header
checks inside the `if current is not None` guard. -/

/-- One classified line of the simulator log:
`simOut` = a machine-friendly `SIM_OUT …` line (with its parsed filters),
`header` = a spatial header (`CNN_OUTPUT`/`MODULAR_OUTPUT` → "final",
`LAYER0_CONV1_OUTPUT` → "layer0", `LAYER1_POOL1_OUTPUT` → "layer1",
`LAYER2_CONV2_OUTPUT` → "layer2") with its `[row,col]`,
`fcHeader` = `FC1_OUTPUT:`/`FC2_OUTPUT:`,
`valueLine` = a `Filter_n:`/`Neuron_n:`/`Class_n:` value line (value already
converted through `parse_int` at the caller's bit width),
`junk` = any unrecognized line. -/
inductive TraceLine where
  | simOut (r c : ℕ) (filters : List (ℕ × ℤ))
  | header (tag : String) (r c : ℕ)
  | fcHeader (tag : String)
  | valueLine (idx : ℕ) (v : ℤ)
  | junk
deriving DecidableEq

/-- The dictionary entry produced per block by `parse_sim_output_file`. -/
structure TraceEventE where
  row : Option ℕ
  col : Option ℕ
  layer : Option String
  filters : List (ℕ × ℤ)
deriving DecidableEq

instance : Inhabited TraceEventE := ⟨⟨none, none, none, []⟩⟩

/-- Python dict insertion with overwrite (`current['filters'][idx] = v`),
preserving first-insertion order. -/
def dictInsert (l : List (ℕ × ℤ)) (k : ℕ) (v : ℤ) : List (ℕ × ℤ) :=
  if l.any (fun p => p.1 = k) then l.map (fun p => if p.1 = k then (k, v) else p)
  else l ++ [(k, v)]

/-- Mutate the most recently appended event (`current` aliases the last
entry of `outputs` in the Python loop). -/
def updateLastEv (f : TraceEventE → TraceEventE) : List TraceEventE → List TraceEventE
  | [] => []
  | [e] => [f e]
  | e :: es => e :: updateLastEv f es

/-- The parse loop of `parse_sim_output_file`.  State: the events appended
so far and whether a "current" block is open.  A `simOut` or spatial
`header` line always appends a new event and opens it; the FC header and
value-line regexes are only consulted inside `if current is not None`, so
they are skipped while no block is open. -/
def parseSimAux : List TraceEventE → Bool → List TraceLine → List TraceEventE
  | evs, _, [] => evs
  | evs, _, TraceLine.simOut r c fs :: rest =>
    parseSimAux (evs ++ [⟨some r, some c, none, fs⟩]) true rest
  | evs, _, TraceLine.header t r c :: rest =>
    parseSimAux (evs ++ [⟨some r, some c, some t, []⟩]) true rest
  | evs, cur, TraceLine.fcHeader t :: rest =>
    if cur then parseSimAux (evs ++ [⟨none, none, some t, []⟩]) true rest
    else parseSimAux evs cur rest
  | evs, cur, TraceLine.valueLine i v :: rest =>
    if cur then
      parseSimAux (updateLastEv (fun e => ⟨e.row, e.col, e.layer, dictInsert e.filters i v⟩) evs)
        cur rest
    else parseSimAux evs cur rest
  | evs, cur, TraceLine.junk :: rest => parseSimAux evs cur rest

/-- `parse_sim_output_file`: start with `outputs = []`, `current = None`. -/
def parse_sim_output_file (lines : List TraceLine) : List TraceEventE :=
  parseSimAux [] false lines

/-- Number of lines that append a new event once a block is open. -/
def countOpenedHeaders : List TraceLine → ℕ
  | [] => 0
  | TraceLine.simOut _ _ _ :: rest => 1 + countOpenedHeaders rest
  | TraceLine.header _ _ _ :: rest => 1 + countOpenedHeaders rest
  | TraceLine.fcHeader _ :: rest => 1 + countOpenedHeaders rest
  | TraceLine.valueLine _ _ :: rest => countOpenedHeaders rest
  | TraceLine.junk :: rest => countOpenedHeaders rest

/-- The dense-layer selection of `compare_outputs`:
`if is_fc_layer and len(vhdl_outputs) > 1: vhdl_outputs = [vhdl_outputs[-1]]`. -/
def select_fc_last (is_fc : Bool) (outs : List TraceEventE) : List TraceEventE :=
  if is_fc ∧ 1 < outs.length then [outs.getLastD default] else outs

/-- The layer filtering of `compare_outputs`:
`[o for o in vhdl_outputs if o.get('layer') == tag]`. -/
def filter_layer (tag : String) (outs : List TraceEventE) : List TraceEventE :=
  outs.filter (fun o => o.layer = some tag)

theorem updateLastEv_length (f : TraceEventE → TraceEventE) (l : List TraceEventE) :
    (updateLastEv f l).length = l.length := by
  induction l with
  | nil => rfl
  | cons e es ih =>
    cases es with
    | nil => rfl
    | cons e' es' => simpa [updateLastEv] using ih

theorem parseSimAux_length_open (lines : List TraceLine) :
    ∀ evs : List TraceEventE,
      (parseSimAux evs true lines).length = evs.length + countOpenedHeaders lines := by
  induction lines with
  | nil => intro evs; simp [parseSimAux, countOpenedHeaders]
  | cons line rest ih =>
    intro evs
    cases line with
    | simOut r c fs =>
      simp only [parseSimAux, countOpenedHeaders, ih]
      simp
      omega
    | header t r c =>
      simp only [parseSimAux, countOpenedHeaders, ih]
      simp
      omega
    | fcHeader t =>
      simp only [parseSimAux, if_true, countOpenedHeaders, ih]
      simp
      omega
    | valueLine i v =>
      simp only [parseSimAux, if_true, countOpenedHeaders, ih, updateLastEv_length]
    | junk =>
      simp only [parseSimAux, countOpenedHeaders, ih]

/-- C9 counterexample: a log whose first block is `FC1_OUTPUT:` (twice, with
value lines) parses to no events at all — both occurrences of the
`(fc1, –)` block are discarded, because the FC header regexes are only
consulted while a block is already open. -/
theorem C9_counterexample :
    parse_sim_output_file
      [TraceLine.fcHeader "fc1", TraceLine.valueLine 0 5,
       TraceLine.fcHeader "fc1", TraceLine.valueLine 0 7] = [] := rfl

/-- C9 amended: once any block has been opened (e.g. the log starts with a
spatial header), every later `SIM_OUT`, spatial or FC header line appends its
own separate event — recurrences are neither discarded nor overwritten; an
FC header appearing before any other recognized header is skipped.  For flat
(dense) layers the comparator keeps only the last block of the filtered
list, and spatial layers are compared against every block. -/
theorem C9_amended :
    (∀ (t : String) (r c : ℕ) (rest : List TraceLine),
        (parse_sim_output_file (TraceLine.header t r c :: rest)).length
          = 1 + countOpenedHeaders rest) ∧
      (∀ (outs : List TraceEventE) (e : TraceEventE),
        select_fc_last true (outs ++ [e]) = [e]) ∧
      (∀ outs : List TraceEventE, select_fc_last false outs = outs) := by
  refine ⟨?_, ?_, ?_⟩
  · intro t r c rest
    show (parseSimAux ([] ++ [⟨some r, some c, some t, []⟩]) true rest).length
        = 1 + countOpenedHeaders rest
    rw [parseSimAux_length_open]
    simp
  · intro outs e
    cases outs with
    | nil => simp [select_fc_last]
    | cons o os =>
      have hlen : 1 < ((o :: os) ++ [e]).length := by
        simp
      rw [select_fc_last, if_pos ⟨rfl, hlen⟩, List.getLastD_eq_getLast?]
      show [((o :: os) ++ [e]).getLast?.getD default] = [e]
      rw [List.getLast?_concat]
      rfl
  · intro outs
    simp [select_fc_last]

/-! ### COE text: serialization (export_to_FPGA) and parsing
(check_coe_packing.py, compute_fc1_manual.py, calc_conv2.py) -/

/-- The vector keyword written by `export_to_FPGA` and searched for (with
`re.IGNORECASE`) by the parsers. -/
def vectorKw : List Char := "memory_initialization_vector".toList

/-- Case-insensitive pattern consumption, embedding the `re.IGNORECASE`
match of the keyword; returns the rest of the text on success. -/
def stripPrefixCI : List Char → List Char → Option (List Char)
  | [], text => some text
  | _ :: _, [] => none
  | p :: ps, c :: cs => if p.toLower = c.toLower then stripPrefixCI ps cs else none

/-- Scan for the first occurrence of the pattern (`re.search`). -/
def findAfterKeywordCI (pat : List Char) : List Char → Option (List Char)
  | [] =>
    match stripPrefixCI pat [] with
    | some r => some r
    | none => none
  | c :: cs =>
    match stripPrefixCI pat (c :: cs) with
    | some r => some r
    | none => findAfterKeywordCI pat cs

/-- Capture of `([^;]+);`: the characters before the first `;`; fails when
no `;` follows (`re.search` finds no match and `parse_coe` raises) or when
the group would be empty (`[^;]+` needs at least one character). -/
def takeUntilSemi (l : List Char) : Option (List Char) :=
  if (l.takeWhile (fun c => c ≠ ';')).length = l.length then none
  else if l.takeWhile (fun c => c ≠ ';') = [] then none
  else some (l.takeWhile (fun c => c ≠ ';'))

/-- `vec.replace('\n','').replace('\r','')`. -/
def removeNL (l : List Char) : List Char := l.filter (fun c => c != '\n' && c != '\r')

/-- Python `str.strip()`: drop whitespace from both ends. -/
def stripChars (l : List Char) : List Char :=
  ((l.dropWhile Char.isWhitespace).reverse.dropWhile Char.isWhitespace).reverse

/-- Python `str.split(',')`. -/
def splitComma : List Char → List (List Char)
  | [] => [[]]
  | c :: cs =>
    if c = ',' then [] :: splitComma cs
    else
      match splitComma cs with
      | [] => [[c]]
      | h :: t => (c :: h) :: t

/-- The `\s*=\s*` step after the keyword: skip whitespace and require `=`
(the whitespace after `=` stays in the capture and is stripped later). -/
def parse_eq_after (rest : List Char) : Option (List Char) :=
  match rest.dropWhile Char.isWhitespace with
  | '=' :: rest2 => some rest2
  | _ => none

/-- `parse_coe` from check_coe_packing.py: find
`memory_initialization_vector`, require `=` (the regex allows whitespace
around it), capture up to the first `;`, drop newlines, strip, split on
commas, strip each part and keep the nonempty ones.  (The embedding commits
to the first keyword occurrence; the files at hand contain exactly one.) -/
def parse_coe (text : List Char) : Option (List (List Char)) :=
  (findAfterKeywordCI vectorKw text).bind fun rest =>
    (parse_eq_after rest).bind fun rest2 =>
      (takeUntilSemi rest2).map fun vec =>
        ((splitComma (stripChars (removeNL vec))).map stripChars).filter (fun p => !p.isEmpty)

/-- String normalization steps of `hexword_to_bytes` from
check_coe_packing.py: strip an optional `0x`/`0X`, left-pad an odd length
with `'0'`, and zfill to `num_filters*2` characters. -/
def hexword_norm (hexword : List Char) (num_filters : ℕ) : List Char :=
  let hw0 := if ['0', 'x'].isPrefixOf hexword || ['0', 'X'].isPrefixOf hexword
             then hexword.drop 2 else hexword
  let hw1 := if hw0.length % 2 = 1 then '0' :: hw0 else hw0
  if hw1.length < num_filters * 2
  then List.replicate (num_filters * 2 - hw1.length) '0' ++ hw1 else hw1

/-- `hexword_to_bytes` from check_coe_packing.py: normalize the token,
parse it as one hex integer (`none` embeds the `ValueError` of
`int(hw, 16)` on non-hex input) and return the `(lsb, msb)` byte lists
(`lsb[i] = (val >> (8*i)) & 0xFF`, `msb[i] = (val >> (8*(n-1-i))) & 0xFF`). -/
def hexword_to_bytes (hexword : List Char) (num_filters : ℕ) : Option (List ℕ × List ℕ) :=
  match parseHexNat (hexword_norm hexword num_filters) with
  | none => none
  | some val =>
    some ((List.range num_filters).map (fun i => (val >>> (8 * i)) &&& 0xFF),
          (List.range num_filters).map (fun i => (val >>> (8 * (num_filters - 1 - i))) &&& 0xFF))

/-- `to_signed8` from check_coe_packing.py: `b - 256 if b & 0x80 else b`. -/
def to_signed8 (b : ℕ) : ℤ := if b &&& 0x80 ≠ 0 then (b : ℤ) - 256 else (b : ℤ)

/-- C10 counterexample: `hexword_to_bytes` is not total — on the token
`"zz"` (no hex digits) `int(hw, 16)` raises, so the unpacking fails instead
of returning `num_filters` bytes. -/
theorem C10_counterexample : hexword_to_bytes ['z', 'z'] 16 = none := rfl

theorem parseHexAux_all_hex (l : List Char) (hl : ∀ c ∈ l, isHexDigitChar c = true) :
    ∀ acc, ∃ v, parseHexAux acc l = some v ∧ v < (acc + 1) * 16 ^ l.length := by
  induction l with
  | nil => intro acc; exact ⟨acc, rfl, by simp⟩
  | cons c cs ih =>
    intro acc
    have hc := hl c (by simp)
    have hval : ∃ d, hexCharVal? c = some d ∧ d < 16 := by
      unfold hexCharVal?
      by_cases h1 : 48 ≤ c.toNat ∧ c.toNat ≤ 57
      · rw [if_pos h1]; exact ⟨_, rfl, by omega⟩
      by_cases h2 : 65 ≤ c.toNat ∧ c.toNat ≤ 70
      · rw [if_neg h1, if_pos h2]; exact ⟨_, rfl, by omega⟩
      by_cases h3 : 97 ≤ c.toNat ∧ c.toNat ≤ 102
      · rw [if_neg h1, if_neg h2, if_pos h3]; exact ⟨_, rfl, by omega⟩
      exfalso
      simp only [isHexDigitChar, Bool.or_eq_true, decide_eq_true_eq] at hc
      tauto
    obtain ⟨d, hd, hd16⟩ := hval
    simp only [parseHexAux, hd]
    obtain ⟨v, hv, hvb⟩ := ih (fun x hx => hl x (by simp [hx])) (acc * 16 + d)
    refine ⟨v, hv, ?_⟩
    have hstep : (acc * 16 + d + 1) * 16 ^ cs.length ≤ (acc + 1) * 16 ^ (c :: cs).length := by
      rw [List.length_cons, pow_succ,
        show (acc + 1) * (16 ^ cs.length * 16) = ((acc + 1) * 16) * 16 ^ cs.length from by ring]
      exact Nat.mul_le_mul_right _ (by omega)
    omega

theorem parseHexAux_zero_pad (m : ℕ) (l : List Char) :
    parseHexAux 0 (List.replicate m '0' ++ l) = parseHexAux 0 l := by
  induction m with
  | zero => rfl
  | succ m ih =>
    rw [List.replicate_succ, List.cons_append,
      show parseHexAux 0 ('0' :: (List.replicate m '0' ++ l))
        = parseHexAux (0 * 16 + 0) (List.replicate m '0' ++ l) from rfl]
    simpa using ih

theorem getD_map_range (nf i : ℕ) (f : ℕ → ℕ) (hi : i < nf) :
    ((List.range nf).map f).getD i 0 = f i := by
  rw [List.getD_eq_getElem?_getD, List.getElem?_map, List.getElem?_range hi]
  rfl

/-- Mod-256 reading of the byte masking: `x &&& 0xFF = x % 256`. -/
theorem and_255_eq_mod (x : ℕ) : x &&& 0xFF = x % 256 := by
  have := Nat.and_pow_two_sub_one_eq_mod x 8
  norm_num at this
  exact this

/-- On an all-hex token the `0x`/`0X` prefix strip never fires: the second
character would have to be `x` or `X`, which is not a hex digit. -/
theorem prefix_check_false (tok : List Char) (hhex : ∀ c ∈ tok, isHexDigitChar c = true) :
    (['0', 'x'].isPrefixOf tok || ['0', 'X'].isPrefixOf tok) = false := by
  cases tok with
  | nil => rfl
  | cons a as =>
    cases as with
    | nil => simp [List.isPrefixOf]
    | cons b bs =>
      have hb := hhex b (by simp)
      have h1 : ('x' == b) = false := by
        cases hq : ('x' == b)
        · rfl
        · rw [(eq_of_beq hq).symm] at hb
          exact absurd hb (by decide)
      have h2 : ('X' == b) = false := by
        cases hq : ('X' == b)
        · rfl
        · rw [(eq_of_beq hq).symm] at hb
          exact absurd hb (by decide)
      simp [List.isPrefixOf, h1, h2]

/-- C10 amended: on every token made of hex digits (with at least one
output unit), `hexword_to_bytes` succeeds and returns exactly `num_filters`
bytes in each of its two lists; when the token is shorter than the word
width, the zfill makes every byte of MSB-first index
`i < num_filters - ceil(len/2)` — output unit 0 and its successors — equal
to 0.  On tokens with non-hex characters it fails (see the
counterexample), so totality over arbitrary strings does not hold. -/
theorem C10_amended (tok : List Char) (nf : ℕ)
    (hhex : ∀ c ∈ tok, isHexDigitChar c = true) (hnf : 1 ≤ nf) :
    ∃ lsb msb, hexword_to_bytes tok nf = some (lsb, msb) ∧
      lsb.length = nf ∧ msb.length = nf ∧
      ∀ i, i + (tok.length + tok.length % 2) / 2 < nf → msb.getD i 0 = 0 := by
  have hpre := prefix_check_false tok hhex
  have hnorm : hexword_norm tok nf =
      (if (if tok.length % 2 = 1 then '0' :: tok else tok).length < nf * 2
       then List.replicate (nf * 2 - (if tok.length % 2 = 1 then '0' :: tok else tok).length) '0'
            ++ (if tok.length % 2 = 1 then '0' :: tok else tok)
       else (if tok.length % 2 = 1 then '0' :: tok else tok)) := by
    unfold hexword_norm
    rw [hpre]
    simp only [Bool.false_eq_true, if_false]
  set hw1 : List Char := if tok.length % 2 = 1 then '0' :: tok else tok with hhw1
  have hw1hex : ∀ c ∈ hw1, isHexDigitChar c = true := by
    rw [hhw1]
    split_ifs
    · intro c hc
      rcases List.mem_cons.mp hc with rfl | hc
      · decide
      · exact hhex c hc
    · exact hhex
  have hw1len : hw1.length = tok.length + tok.length % 2 := by
    rw [hhw1]
    split_ifs with h
    · rw [List.length_cons]; omega
    · omega
  set hw2 : List Char := if hw1.length < nf * 2
      then List.replicate (nf * 2 - hw1.length) '0' ++ hw1 else hw1 with hhw2
  have hw2hex : ∀ c ∈ hw2, isHexDigitChar c = true := by
    rw [hhw2]
    split_ifs
    · intro c hc
      rcases List.mem_append.mp hc with hc | hc
      · rw [List.eq_of_mem_replicate hc]; decide
      · exact hw1hex c hc
    · exact hw1hex
  have hw2ne : hw2 ≠ [] := by
    rw [hhw2]
    split_ifs with h
    · intro hemp
      have := congrArg List.length hemp
      rw [List.length_append, List.length_replicate, List.length_nil] at this
      omega
    · intro hemp
      rw [hemp] at h
      rw [List.length_nil] at h
      omega
  obtain ⟨val, hval, _⟩ := parseHexAux_all_hex hw2 hw2hex 0
  have hparse : parseHexNat hw2 = some val := by
    rw [parseHexNat, if_neg (by simpa [List.isEmpty_iff] using hw2ne)]
    exact hval
  have hvalsmall : val < 16 ^ hw1.length := by
    obtain ⟨v', hv', hv'b⟩ := parseHexAux_all_hex hw1 hw1hex 0
    by_cases h : hw1.length < nf * 2
    · have hzp : parseHexAux 0 hw2 = parseHexAux 0 hw1 := by
        rw [hhw2, if_pos h]
        exact parseHexAux_zero_pad _ _
      rw [hzp, hv'] at hval
      have : v' = val := Option.some.inj hval
      subst this
      simpa using hv'b
    · have h2 : hw2 = hw1 := by rw [hhw2, if_neg h]
      rw [h2, hv'] at hval
      have : v' = val := Option.some.inj hval
      subst this
      simpa using hv'b
  refine ⟨(List.range nf).map (fun i => (val >>> (8 * i)) &&& 0xFF),
    (List.range nf).map (fun i => (val >>> (8 * (nf - 1 - i))) &&& 0xFF), ?_, by simp, by simp, ?_⟩
  · rw [hexword_to_bytes, hnorm, hparse]
  · intro i hi
    have hi' : i < nf := by omega
    rw [getD_map_range nf i _ hi']
    have hlenle : 4 * hw1.length ≤ 8 * (nf - 1 - i) := by
      rw [hw1len]
      have heven : (tok.length + tok.length % 2) % 2 = 0 := by omega
      omega
    have hsm : val < 2 ^ (8 * (nf - 1 - i)) := by
      calc val < 16 ^ hw1.length := hvalsmall
        _ = 2 ^ (4 * hw1.length) := by
            rw [show (16 : ℕ) = 2 ^ 4 from by norm_num, ← pow_mul]
        _ ≤ 2 ^ (8 * (nf - 1 - i)) := Nat.pow_le_pow_right (by norm_num) hlenle
    rw [Nat.shiftRight_eq_div_pow, and_255_eq_mod, Nat.div_eq_of_lt hsm]

/-- C10 amended, witness: the one-digit token `"5"` with two output units
parses to bytes `(lsb, msb) = ([5, 0], [0, 5])`; the MSB byte (output
unit 0) is zero-filled. -/
theorem C10_amended_witness :
    ∃ lsb msb, hexword_to_bytes ['5'] 2 = some (lsb, msb) ∧
      lsb.length = 2 ∧ msb.length = 2 ∧
      ∀ i, i + ((['5'] : List Char).length + (['5'] : List Char).length % 2) / 2 < 2 →
        msb.getD i 0 = 0 :=
  C10_amended ['5'] 2 (by decide) (by decide)

/-! ### Conv2D and Dense packed words (export_to_FPGA) -/

theorem byte_value_lt (z : ℤ) : byte_value z < 256 := by
  unfold byte_value
  have h1 : 0 ≤ z % 256 := Int.emod_nonneg z (by norm_num)
  have h2 : z % 256 < 256 := Int.emod_lt_of_pos z (by norm_num)
  omega

/-- Flat index used by the Conv2D packing loop of `export_to_FPGA`: the
address is decomposed as `kh = addr // (kernel_w*in_channels)`,
`kw = (addr // in_channels) % kernel_w`, `c_in = addr % in_channels`, and
`weight_idx = ((kh*kernel_w + kw)*in_channels + c_in)*num_filters + f_idx`. -/
def conv_weight_index (kernel_w in_channels num_filters addr f_idx : ℕ) : ℕ :=
  ((addr / (kernel_w * in_channels) * kernel_w + addr / in_channels % kernel_w) * in_channels
    + addr % in_channels) * num_filters + f_idx

/-- The kh/kw/c_in decomposition recomposes to the address itself, so the
Conv2D loop packs exactly the flat weights `addr*num_filters + f`. -/
theorem conv_weight_index_eq (kernel_w in_channels num_filters addr f_idx : ℕ) :
    conv_weight_index kernel_w in_channels num_filters addr f_idx
      = addr * num_filters + f_idx := by
  unfold conv_weight_index
  congr 1
  have h1 : addr / in_channels / kernel_w = addr / (kernel_w * in_channels) := by
    rw [Nat.div_div_eq_div_mul, Nat.mul_comm]
  have h2 := Nat.div_add_mod (addr / in_channels) kernel_w
  have h3 := Nat.div_add_mod addr in_channels
  have hx : addr / (kernel_w * in_channels) * kernel_w + addr / in_channels % kernel_w
      = addr / in_channels := by
    rw [← h1, Nat.mul_comm (addr / in_channels / kernel_w) kernel_w]
    exact h2
  rw [hx, Nat.mul_comm (addr / in_channels) in_channels, h3]

/-- The packed Conv2D word at one address:
`packed_value |= byte << ((num_filters-1-f)*8)` over all filters, where
`byte = int(quantized_weights[weight_idx]) & 0xFF`. -/
def conv_packed_word (qw : ℕ → ℤ) (kernel_w in_channels num_filters addr : ℕ) : ℕ :=
  packWord ((List.range num_filters).map fun f =>
    byte_value (qw (conv_weight_index kernel_w in_channels num_filters addr f)))

/-- All packed words of a Conv2D layer, one per address of the depth
`kernel_h * kernel_w * in_channels`. -/
def conv_coe_words (qw : ℕ → ℤ) (kernel_h kernel_w in_channels num_filters : ℕ) : List ℕ :=
  (List.range (kernel_h * kernel_w * in_channels)).map
    (conv_packed_word qw kernel_w in_channels num_filters)

/-- The packed Dense word at one input index:
`weight_idx = input_idx * num_outputs + output_idx`, same MSB-first order. -/
def dense_packed_word (qw : ℕ → ℤ) (num_outputs input_idx : ℕ) : ℕ :=
  packWord ((List.range num_outputs).map fun o =>
    byte_value (qw (input_idx * num_outputs + o)))

/-- All packed words of a Dense layer, one per input feature. -/
def dense_coe_words (qw : ℕ → ℤ) (num_inputs num_outputs : ℕ) : List ℕ :=
  (List.range num_inputs).map (dense_packed_word qw num_outputs)

/-- Token width used by export_to_FPGA: `num_hex_chars = (n*8 + 3) // 4`. -/
def num_hex_chars (n : ℕ) : ℕ := (n * 8 + 3) / 4

theorem num_hex_chars_eq (n : ℕ) : num_hex_chars n = 2 * n := by
  unfold num_hex_chars
  rw [show n * 8 + 3 = 3 + 4 * (2 * n) from by ring, Nat.add_mul_div_left _ _ (by norm_num)]
  norm_num

/-- C4: the Conv2D packing is MSB-first — for every tensor and every
`f < num_filters`, the byte at MSB-first position `f` of the packed word at
address `a` (i.e. `word / 2^(8*(num_filters-1-f)) % 256`, so `f = 0` is the
most significant byte and `f = num_filters-1` the least) is the two's
complement byte of the quantized weight with flat index
`a*num_filters + f`; and packing filter 0 = 5, filter 1 = −3 at address 0
of a 2-output-channel layer produces the word `0x05FD`. -/
theorem C4_msb_first_packing :
    (∀ (qw : ℕ → ℤ) (kernel_w in_channels num_filters addr f : ℕ), f < num_filters →
      conv_packed_word qw kernel_w in_channels num_filters addr
          / 2 ^ (8 * (num_filters - 1 - f)) % 256
        = byte_value (qw (addr * num_filters + f))) ∧
      conv_packed_word (fun i => if i = 0 then 5 else -3) 1 1 2 0 = 0x05FD := by
  constructor
  · intro qw kernel_w in_channels num_filters addr f hf
    unfold conv_packed_word
    set bytes := (List.range num_filters).map
      (fun g => byte_value (qw (conv_weight_index kernel_w in_channels num_filters addr g)))
      with hb
    have hblt : ∀ b ∈ bytes, b < 256 := by
      intro b hbm
      rw [hb] at hbm
      simp only [List.mem_map] at hbm
      obtain ⟨j, _, rfl⟩ := hbm
      exact byte_value_lt _
    have hlen : bytes.length = num_filters := by rw [hb]; simp
    rw [packWord_eq_beVal bytes hblt]
    have hext := beVal_extract bytes hblt f (by rw [hlen]; exact hf)
    rw [hlen] at hext
    rw [hext, hb, getD_map_range num_filters f _ hf, conv_weight_index_eq]
  · decide

/-- C4 witness: the most significant byte of the `0x05FD` example word is
filter 0's value `5`. -/
theorem C4_witness :
    conv_packed_word (fun i => if i = 0 then 5 else -3) 1 1 2 0
        / 2 ^ (8 * (2 - 1 - 0)) % 256
      = byte_value ((fun i : ℕ => if i = 0 then (5 : ℤ) else -3) (0 * 2 + 0)) :=
  C4_msb_first_packing.1 _ 1 1 2 0 0 (by decide)

/-! ### Round trip: serialize then parse (C1 machinery) -/

theorem getD_map_range' {α : Type} (n i : ℕ) (f : ℕ → α) (d : α) (hi : i < n) :
    ((List.range n).map f).getD i d = f i := by
  rw [List.getD_eq_getElem?_getD, List.getElem?_map, List.getElem?_range hi]
  rfl

theorem and128_eq_zero (b : ℕ) (h : b < 128) : b &&& 128 = 0 := by
  rw [show (128 : ℕ) = 2 ^ 7 from by norm_num, Nat.and_two_pow,
    Nat.testBit_lt_two_pow (by norm_num at h ⊢; omega)]
  rfl

theorem and128_ne_zero (b : ℕ) (h1 : 128 ≤ b) (h2 : b < 256) : b &&& 128 ≠ 0 := by
  have h7 : b.testBit 7 = true := by
    rw [Nat.testBit_to_div_mod]
    have hd : b / 2 ^ 7 = 1 := by
      rw [show (2 : ℕ) ^ 7 = 128 from by norm_num]
      omega
    rw [hd]
    rfl
  rw [show (128 : ℕ) = 2 ^ 7 from by norm_num, Nat.and_two_pow, h7]
  norm_num

/-- `to_signed8` on an in-range byte is the usual signed-byte reading. -/
theorem to_signed8_eq (b : ℕ) (h : b < 256) :
    to_signed8 b = if 128 ≤ b then (b : ℤ) - 256 else (b : ℤ) := by
  unfold to_signed8
  rcases Nat.lt_or_ge b 128 with hb | hb
  · rw [if_neg (by simpa using and128_eq_zero b hb), if_neg (by omega)]
  · rw [if_pos (and128_ne_zero b hb h), if_pos hb]

/-- Unpacking inverts the two's-complement byte encoding of an int8 value. -/
theorem to_signed8_byte_value (z : ℤ) (hlo : -128 ≤ z) (hhi : z ≤ 127) :
    to_signed8 (byte_value z) = z := by
  have h1 : 0 ≤ z % 256 := Int.emod_nonneg z (by norm_num)
  have h2 : z % 256 < 256 := Int.emod_lt_of_pos z (by norm_num)
  rw [byte_value, to_signed8_eq _ (by omega)]
  split_ifs with h
  · omega
  · omega

/-- When the token is all-hex, of even length and already at least the word
width, `hexword_to_bytes` normalization leaves it unchanged. -/
theorem hexword_norm_hex_token (tok : List Char) (nf : ℕ)
    (hhex : ∀ c ∈ tok, isHexDigitChar c = true) (heven : ¬ tok.length % 2 = 1)
    (hfit : ¬ tok.length < nf * 2) : hexword_norm tok nf = tok := by
  unfold hexword_norm
  rw [prefix_check_false tok hhex]
  simp only [Bool.false_eq_true, if_false]
  rw [if_neg heven, if_neg hfit]

/-- Unpacking a full-width serialized token gives back the word's bytes. -/
theorem hexword_to_bytes_digitsBE (w nf : ℕ) (hnf : 1 ≤ nf) (hwlt : w < 16 ^ (2 * nf)) :
    hexword_to_bytes (digitsBE w (2 * nf)) nf
      = some ((List.range nf).map (fun i => (w >>> (8 * i)) &&& 0xFF),
              (List.range nf).map (fun i => (w >>> (8 * (nf - 1 - i))) &&& 0xFF)) := by
  have hhex := digitsBE_mem_hex w (2 * nf)
  have hlen := digitsBE_length w (2 * nf)
  rw [hexword_to_bytes,
    hexword_norm_hex_token _ _ hhex (by rw [hlen]; omega) (by rw [hlen]; omega),
    parseHexNat_digitsBE w _ (by omega) hwlt]

/-- Per-address text of the export loop: the first address writes its bare
token, the last writes `,token;`, every other address writes `,token`; a
cosmetic newline follows every fourth address except the last.  (For a
single-address layer the `addr == 0` branch wins and no `;` is ever
written.) -/
def coeChunk (tok : List Char) (addr depth : ℕ) : List Char :=
  (if addr = 0 then tok
   else if addr = depth - 1 then ',' :: (tok ++ [';'])
   else ',' :: tok) ++
  (if (addr + 1) % 4 = 0 ∧ addr ≠ depth - 1 then ['\n'] else [])

/-- The token stream of the export loop, one `coeChunk` per address. -/
def coeBodyAux (width depth : ℕ) : ℕ → List ℕ → List Char
  | _, [] => []
  | addr, w :: ws => coeChunk (digitsBE w width) addr depth ++ coeBodyAux width depth (addr + 1) ws

/-- The text written by `export_to_FPGA` from the vector keyword onwards:
`preamble` stands for the comment lines and the radix line that precede it
(they are data-dependent; the round-trip theorems assume they contain no
occurrence of the vector keyword, which holds for the generated files),
then `memory_initialization_vector=`, the tokens, and a final newline when
the depth is not a multiple of 4. -/
def serialize_coe (preamble : List Char) (words : List ℕ) (width : ℕ) : List Char :=
  preamble ++ (vectorKw ++ '=' :: (coeBodyAux width words.length 0 words ++
    (if words.length % 4 ≠ 0 then ['\n'] else [])))

theorem removeNL_append (a b : List Char) : removeNL (a ++ b) = removeNL a ++ removeNL b := by
  unfold removeNL
  exact List.filter_append _ _

theorem isHex_not_special (c : Char) (h : isHexDigitChar c = true) :
    c ≠ '\n' ∧ c ≠ '\r' ∧ c ≠ ';' ∧ c ≠ ',' ∧ c.isWhitespace = false := by
  have hn : c ≠ '\n' := by intro he; rw [he] at h; exact absurd h (by decide)
  have hr : c ≠ '\r' := by intro he; rw [he] at h; exact absurd h (by decide)
  have hsemi : c ≠ ';' := by intro he; rw [he] at h; exact absurd h (by decide)
  have hcomma : c ≠ ',' := by intro he; rw [he] at h; exact absurd h (by decide)
  have hsp : c ≠ ' ' := by intro he; rw [he] at h; exact absurd h (by decide)
  have htab : c ≠ '\t' := by intro he; rw [he] at h; exact absurd h (by decide)
  refine ⟨hn, hr, hsemi, hcomma, ?_⟩
  simp [Char.isWhitespace, hn, hr, hsp, htab]

theorem removeNL_of_keep (l : List Char)
    (h : ∀ c ∈ l, isHexDigitChar c = true ∨ c = ',') : removeNL l = l := by
  induction l with
  | nil => rfl
  | cons c cs ih =>
    have hkeep : (c != '\n' && c != '\r') = true := by
      rcases h c (by simp) with hc | hc
      · obtain ⟨h1, h2, _, _, _⟩ := isHex_not_special c hc
        simp [h1, h2]
      · rw [hc]; rfl
    unfold removeNL at *
    rw [List.filter_cons, if_pos hkeep, ih (fun x hx => h x (by simp [hx]))]

theorem dropWhile_ws_eq_self (l : List Char) (h : ∀ c ∈ l, c.isWhitespace = false) :
    l.dropWhile Char.isWhitespace = l := by
  cases l with
  | nil => rfl
  | cons c cs =>
    rw [List.dropWhile_cons]
    simp [h c (List.mem_cons_self c cs)]

theorem stripChars_eq_self (l : List Char) (h : ∀ c ∈ l, c.isWhitespace = false) :
    stripChars l = l := by
  unfold stripChars
  rw [dropWhile_ws_eq_self l h,
    dropWhile_ws_eq_self l.reverse (fun c hc => h c (List.mem_reverse.mp hc)),
    List.reverse_reverse]

theorem splitComma_no_comma (t : List Char) (h : ∀ c ∈ t, c ≠ ',') :
    splitComma t = [t] := by
  induction t with
  | nil => rfl
  | cons c cs ih =>
    rw [splitComma, if_neg (h c (by simp)), ih (fun x hx => h x (by simp [hx]))]

theorem splitComma_append_comma (t r : List Char) (h : ∀ c ∈ t, c ≠ ',') :
    splitComma (t ++ ',' :: r) = t :: splitComma r := by
  induction t with
  | nil =>
    rw [List.nil_append, splitComma, if_pos rfl]
  | cons c cs ih =>
    rw [List.cons_append, splitComma, if_neg (h c (by simp)),
      ih (fun x hx => h x (by simp [hx]))]

theorem splitComma_intercalate (t : List Char) (l : List (List Char))
    (ht : ∀ c ∈ t, c ≠ ',') (hl : ∀ x ∈ l, ∀ c ∈ x, c ≠ ',') :
    splitComma (t ++ (l.map (fun x => ',' :: x)).flatten) = t :: l := by
  induction l generalizing t with
  | nil =>
    rw [List.map_nil, show ([] : List (List Char)).flatten = [] from rfl,
      List.append_nil, splitComma_no_comma t ht]
  | cons x xs ih =>
    rw [List.map_cons,
      show ((',' :: x) :: xs.map (fun y => ',' :: y)).flatten
        = ',' :: (x ++ (xs.map (fun y => ',' :: y)).flatten) from rfl,
      splitComma_append_comma t _ ht]
    have := ih x (hl x (by simp)) (fun y hy => hl y (by simp [hy]))
    rw [this]

theorem takeWhile_ne_semi_append (X Y : List Char) (hX : ∀ c ∈ X, c ≠ ';') :
    (X ++ ';' :: Y).takeWhile (fun c => c ≠ ';') = X := by
  induction X with
  | nil =>
    rw [List.nil_append, List.takeWhile_cons]
    simp
  | cons c cs ih =>
    rw [List.cons_append, List.takeWhile_cons,
      if_pos (by simp [hX c (by simp)]), ih (fun x hx => hX x (by simp [hx]))]

theorem takeUntilSemi_append (X Y : List Char) (hX : ∀ c ∈ X, c ≠ ';') (hne : X ≠ []) :
    takeUntilSemi (X ++ ';' :: Y) = some X := by
  have htw := takeWhile_ne_semi_append X Y hX
  have hlen : (X ++ ';' :: Y).length = X.length + (Y.length + 1) := by
    rw [List.length_append, List.length_cons]
  rw [takeUntilSemi, htw, if_neg (by omega), if_neg hne]

theorem stripPrefixCI_vectorKw (l : List Char) :
    stripPrefixCI vectorKw (vectorKw ++ l) = some l := rfl

theorem findAfterKeywordCI_append (pat p l : List Char)
    (h : ∀ i, i < p.length → stripPrefixCI pat ((p ++ l).drop i) = none) :
    findAfterKeywordCI pat (p ++ l) = findAfterKeywordCI pat l := by
  induction p with
  | nil => rfl
  | cons c cs ih =>
    have h0 := h 0 (by simp)
    rw [List.drop_zero, List.cons_append] at h0
    rw [List.cons_append, findAfterKeywordCI, h0]
    exact ih (fun i hi => by
      have := h (i + 1) (by simpa using Nat.succ_lt_succ hi)
      rwa [List.cons_append, List.drop_succ_cons] at this)

theorem removeNL_nlpart (cond : Prop) [Decidable cond] :
    removeNL (if cond then ['\n'] else []) = [] := by
  split_ifs <;> rfl

theorem mem_nlpart (cond : Prop) [Decidable cond] (c : Char)
    (hc : c ∈ (if cond then ['\n'] else [])) : c = '\n' := by
  revert hc
  split_ifs <;> simp

/-- Structure of the token stream from address 1 on: it is a `;`-free text
whose newline-stripped form is the comma-prefixed token list, followed by
one final `;`. -/
theorem coeBodyAux_structure (width depth : ℕ) :
    ∀ (ws : List ℕ) (addr : ℕ), 1 ≤ addr → addr + ws.length = depth → ws ≠ [] →
      ∃ PRE : List Char,
        coeBodyAux width depth addr ws = PRE ++ [';'] ∧
        (∀ c ∈ PRE, isHexDigitChar c = true ∨ c = ',' ∨ c = '\n') ∧
        removeNL PRE = (ws.map (fun w => ',' :: digitsBE w width)).flatten := by
  intro ws
  induction ws with
  | nil => intro addr _ _ hne; exact absurd rfl hne
  | cons w ws' ih =>
    intro addr haddr hsum _
    by_cases hws' : ws' = []
    · subst hws'
      have hlast : addr = depth - 1 := by
        rw [List.length_cons, List.length_nil] at hsum
        omega
      refine ⟨',' :: digitsBE w width, ?_, ?_, ?_⟩
      · rw [coeBodyAux, coeBodyAux, List.append_nil, coeChunk,
          if_neg (by omega), if_pos hlast, if_neg (fun h => h.2 hlast), List.append_nil]
        simp
      · intro c hc
        rcases List.mem_cons.mp hc with rfl | hc'
        · right; left; rfl
        · left; exact digitsBE_mem_hex w width c hc'
      · rw [removeNL_of_keep _ (fun c hc => by
            rcases List.mem_cons.mp hc with rfl | hc'
            · right; rfl
            · left; exact digitsBE_mem_hex w width c hc')]
        simp
    · have hlen' : 1 ≤ ws'.length := by
        cases ws' with
        | nil => exact absurd rfl hws'
        | cons a l => simp
      have hnotlast : addr ≠ depth - 1 := by
        rw [List.length_cons] at hsum
        omega
      obtain ⟨PRE', heq', hch', hrm'⟩ := ih (addr + 1) (by omega)
        (by rw [List.length_cons] at hsum; omega) hws'
      refine ⟨(',' :: (digitsBE w width ++ (if (addr + 1) % 4 = 0 ∧ addr ≠ depth - 1
        then ['\n'] else []))) ++ PRE', ?_, ?_, ?_⟩
      · rw [coeBodyAux, coeChunk, if_neg (by omega), if_neg hnotlast, heq']
        simp [List.append_assoc]
      · intro c hc
        rcases List.mem_append.mp hc with hc' | hc'
        · rcases List.mem_cons.mp hc' with rfl | hc''
          · right; left; rfl
          · rcases List.mem_append.mp hc'' with hc3 | hc3
            · left; exact digitsBE_mem_hex w width c hc3
            · right; right; exact mem_nlpart _ c hc3
        · exact hch' c hc'
      · rw [removeNL_append, hrm',
          show (',' :: (digitsBE w width ++ (if (addr + 1) % 4 = 0 ∧ addr ≠ depth - 1
              then ['\n'] else []))) = (',' :: digitsBE w width)
              ++ (if (addr + 1) % 4 = 0 ∧ addr ≠ depth - 1 then ['\n'] else []) from by simp,
          removeNL_append, removeNL_nlpart, List.append_nil,
          removeNL_of_keep _ (fun c hc => by
            rcases List.mem_cons.mp hc with rfl | hc'
            · right; rfl
            · left; exact digitsBE_mem_hex w width c hc')]
        simp

/-- Parsing the serialized COE text of at least two addresses yields exactly
the zero-padded hex tokens of the packed words, provided the preamble
contains no occurrence of the vector keyword. -/
theorem parse_coe_serialize (preamble : List Char) (words : List ℕ) (width : ℕ)
    (hlen : 2 ≤ words.length) (hwidth : 1 ≤ width)
    (hclean : ∀ i, i < preamble.length →
      stripPrefixCI vectorKw ((serialize_coe preamble words width).drop i) = none) :
    parse_coe (serialize_coe preamble words width)
      = some (words.map (fun w => digitsBE w width)) := by
  obtain ⟨w0, ws, rfl⟩ : ∃ w0 ws, words = w0 :: ws := by
    cases words with
    | nil => simp at hlen
    | cons a l => exact ⟨a, l, rfl⟩
  have hws : ws ≠ [] := by
    intro h
    rw [h] at hlen
    simp at hlen
  obtain ⟨PRE, heq, hch, hrm⟩ := coeBodyAux_structure width (w0 :: ws).length ws 1
    (le_refl 1) (by rw [List.length_cons]; omega) hws
  have hchunk0 : coeChunk (digitsBE w0 width) 0 (w0 :: ws).length = digitsBE w0 width := by
    unfold coeChunk
    rw [if_pos rfl, if_neg (by omega)]
    simp
  have htok0ne : digitsBE w0 width ≠ [] := by
    intro h
    have := digitsBE_length w0 width
    rw [h] at this
    simp at this
    omega
  set TAIL : List Char := if (w0 :: ws).length % 4 ≠ 0 then ['\n'] else [] with htail
  have hbody : coeBodyAux width (w0 :: ws).length 0 (w0 :: ws) ++ TAIL
      = (digitsBE w0 width ++ PRE) ++ ';' :: TAIL := by
    rw [coeBodyAux, hchunk0, heq]
    simp [List.append_assoc]
  have hXsemi : ∀ c ∈ digitsBE w0 width ++ PRE, c ≠ ';' := by
    intro c hc
    rcases List.mem_append.mp hc with hc' | hc'
    · exact (isHex_not_special c (digitsBE_mem_hex w0 width c hc')).2.2.1
    · rcases hch c hc' with h | h | h
      · exact (isHex_not_special c h).2.2.1
      · rw [h]; decide
      · rw [h]; decide
  have hfind : findAfterKeywordCI vectorKw (serialize_coe preamble (w0 :: ws) width)
      = some ('=' :: (coeBodyAux width (w0 :: ws).length 0 (w0 :: ws) ++ TAIL)) := by
    rw [serialize_coe, ← htail,
      findAfterKeywordCI_append vectorKw preamble _ (fun i hi => hclean i hi)]
    rfl
  have hdw : ('=' :: (coeBodyAux width (w0 :: ws).length 0 (w0 :: ws) ++ TAIL)).dropWhile
      Char.isWhitespace = '=' :: (coeBodyAux width (w0 :: ws).length 0 (w0 :: ws) ++ TAIL) := by
    rw [List.dropWhile_cons]
    simp
  have hea : parse_eq_after ('=' :: (coeBodyAux width (w0 :: ws).length 0 (w0 :: ws) ++ TAIL))
      = some (coeBodyAux width (w0 :: ws).length 0 (w0 :: ws) ++ TAIL) := by
    rw [parse_eq_after, hdw]
    rfl
  have htake : takeUntilSemi (coeBodyAux width (w0 :: ws).length 0 (w0 :: ws) ++ TAIL)
      = some (digitsBE w0 width ++ PRE) := by
    rw [hbody]
    exact takeUntilSemi_append _ _ hXsemi (by simp [htok0ne])
  have hrmX : removeNL (digitsBE w0 width ++ PRE)
      = digitsBE w0 width ++ (ws.map (fun w => ',' :: digitsBE w width)).flatten := by
    rw [removeNL_append, hrm,
      removeNL_of_keep _ (fun c hc => Or.inl (digitsBE_mem_hex w0 width c hc))]
  have hflat_chars : ∀ c ∈ digitsBE w0 width ++ (ws.map (fun w => ',' :: digitsBE w width)).flatten,
      isHexDigitChar c = true ∨ c = ',' := by
    intro c hc
    rcases List.mem_append.mp hc with hc' | hc'
    · exact Or.inl (digitsBE_mem_hex w0 width c hc')
    · obtain ⟨x, hx, hcx⟩ := List.mem_flatten.mp hc'
      obtain ⟨w, _, rfl⟩ := List.mem_map.mp hx
      rcases List.mem_cons.mp hcx with rfl | hc''
      · exact Or.inr rfl
      · exact Or.inl (digitsBE_mem_hex w width c hc'')
  have hstrip : stripChars (digitsBE w0 width ++ (ws.map (fun w => ',' :: digitsBE w width)).flatten)
      = digitsBE w0 width ++ (ws.map (fun w => ',' :: digitsBE w width)).flatten := by
    apply stripChars_eq_self
    intro c hc
    rcases hflat_chars c hc with h | h
    · exact (isHex_not_special c h).2.2.2.2
    · rw [h]; rfl
  have hmm : ws.map (fun w => ',' :: digitsBE w width)
      = (ws.map (fun w => digitsBE w width)).map (fun x => ',' :: x) :=
    (List.map_map _ _ _).symm
  have hsplit : splitComma (digitsBE w0 width ++ (ws.map (fun w => ',' :: digitsBE w width)).flatten)
      = digitsBE w0 width :: ws.map (fun w => digitsBE w width) := by
    rw [hmm]
    apply splitComma_intercalate
    · intro c hc
      exact (isHex_not_special c (digitsBE_mem_hex w0 width c hc)).2.2.2.1
    · intro x hx c hc
      obtain ⟨w, _, rfl⟩ := List.mem_map.mp hx
      exact (isHex_not_special c (digitsBE_mem_hex w width c hc)).2.2.2.1
  have hparts_id : ∀ x ∈ digitsBE w0 width :: ws.map (fun w => digitsBE w width),
      stripChars x = x := by
    intro x hx
    apply stripChars_eq_self
    intro c hc
    rcases List.mem_cons.mp hx with rfl | hx'
    · exact (isHex_not_special c (digitsBE_mem_hex w0 width c hc)).2.2.2.2
    · obtain ⟨w, _, rfl⟩ := List.mem_map.mp hx'
      exact (isHex_not_special c (digitsBE_mem_hex w width c hc)).2.2.2.2
  have hne_parts : ∀ x ∈ digitsBE w0 width :: ws.map (fun w => digitsBE w width),
      (!x.isEmpty) = true := by
    intro x hx
    have hxne : x ≠ [] := by
      rcases List.mem_cons.mp hx with rfl | hx'
      · exact htok0ne
      · obtain ⟨w, _, rfl⟩ := List.mem_map.mp hx'
        intro h
        have := digitsBE_length w width
        rw [h] at this
        simp at this
        omega
    simp [List.isEmpty_iff, hxne]
  rw [parse_coe, hfind, Option.some_bind, hea, Option.some_bind, htake, Option.map_some',
    hrmX, hstrip, hsplit, List.map_congr_left hparts_id, List.map_id',
    List.filter_eq_self.mpr hne_parts]
  rfl

/-- The packed word list shared by the Conv2D and Dense export loops: at
address `a`, the MSB-first packed bytes of the weights `qw (idx a f)`. -/
def packed_words (qw : ℕ → ℤ) (idx : ℕ → ℕ → ℕ) (depth nf : ℕ) : List ℕ :=
  (List.range depth).map fun a =>
    packWord ((List.range nf).map fun f => byte_value (qw (idx a f)))

theorem conv_coe_words_eq (qw : ℕ → ℤ) (kh kw cin nf : ℕ) :
    conv_coe_words qw kh kw cin nf
      = packed_words qw (fun a f => conv_weight_index kw cin nf a f) (kh * kw * cin) nf := rfl

theorem dense_coe_words_eq (qw : ℕ → ℤ) (ni no : ℕ) :
    dense_coe_words qw ni no = packed_words qw (fun i o => i * no + o) ni no := rfl

/-- Round trip for any packing index map: serialize the packed words of at
least two addresses, parse the text back, unpack each token MSB-first and
read each byte as a signed int8 — the original quantized weights return. -/
theorem roundtrip_core (preamble : List Char) (qw : ℕ → ℤ) (idx : ℕ → ℕ → ℕ) (depth nf : ℕ)
    (hnf : 1 ≤ nf) (hdepth : 2 ≤ depth) (hq : ∀ i, -128 ≤ qw i ∧ qw i ≤ 127)
    (hclean : ∀ i, i < preamble.length →
      stripPrefixCI vectorKw ((serialize_coe preamble (packed_words qw idx depth nf)
        (num_hex_chars nf)).drop i) = none) :
    ∃ parts : List (List Char),
      parse_coe (serialize_coe preamble (packed_words qw idx depth nf) (num_hex_chars nf))
        = some parts ∧
      parts.length = depth ∧
      ∀ a f, a < depth → f < nf →
        ∃ lsb msb, hexword_to_bytes (parts.getD a []) nf = some (lsb, msb) ∧
          to_signed8 (msb.getD f 0) = qw (idx a f) := by
  have hwlen : (packed_words qw idx depth nf).length = depth := by
    unfold packed_words
    simp
  have hwidth : 1 ≤ num_hex_chars nf := by rw [num_hex_chars_eq]; omega
  have hparse := parse_coe_serialize preamble (packed_words qw idx depth nf) (num_hex_chars nf)
    (by rw [hwlen]; exact hdepth) hwidth hclean
  refine ⟨_, hparse, ?_, ?_⟩
  · rw [List.length_map, hwlen]
  · intro a f ha hf
    have hget : ((packed_words qw idx depth nf).map
        (fun w => digitsBE w (num_hex_chars nf))).getD a []
        = digitsBE (packWord ((List.range nf).map fun g => byte_value (qw (idx a g))))
          (num_hex_chars nf) := by
      unfold packed_words
      rw [List.map_map]
      exact getD_map_range' depth a _ [] ha
    set bytes : List ℕ := (List.range nf).map fun g => byte_value (qw (idx a g)) with hbytes
    have hblt : ∀ b ∈ bytes, b < 256 := by
      intro b hb
      rw [hbytes] at hb
      simp only [List.mem_map] at hb
      obtain ⟨j, _, rfl⟩ := hb
      exact byte_value_lt _
    have hbl : bytes.length = nf := by rw [hbytes]; simp
    have hwordlt : packWord bytes < 16 ^ (2 * nf) := by
      have hlt := packWord_lt bytes hblt
      rw [hbl] at hlt
      calc packWord bytes < 2 ^ (8 * nf) := hlt
        _ ≤ 16 ^ (2 * nf) := by
            rw [show (16 : ℕ) = 2 ^ 4 from by norm_num, ← pow_mul]
            exact Nat.pow_le_pow_right (by norm_num) (by omega)
    have hhexbytes := hexword_to_bytes_digitsBE (packWord bytes) nf hnf hwordlt
    refine ⟨(List.range nf).map (fun i => (packWord bytes >>> (8 * i)) &&& 0xFF),
      (List.range nf).map (fun i => (packWord bytes >>> (8 * (nf - 1 - i))) &&& 0xFF), ?_, ?_⟩
    · rw [hget, num_hex_chars_eq]
      exact hhexbytes
    · rw [getD_map_range nf f _ hf, Nat.shiftRight_eq_div_pow, and_255_eq_mod]
      have hext := beVal_extract bytes hblt f (by rw [hbl]; exact hf)
      rw [hbl] at hext
      rw [packWord_eq_beVal bytes hblt, hext, hbytes, getD_map_range nf f _ hf]
      exact to_signed8_byte_value _ (hq _).1 (hq _).2

/-- C1 counterexample: for a layer of fan-in depth 1 (a 1×1 kernel with one
input channel — the `addr == 0` branch of the export loop fires and no `;`
terminator is ever written), re-parsing the serialized image fails with the
"COE vector not found" error, so the round trip does not hold for every
tensor/descriptor pair. -/
theorem C1_counterexample :
    parse_coe (serialize_coe
      ("; Layer 0: conv weights (Q1.6 format)\nmemory_initialization_radix=16; Hexadecimal format\n".toList)
      (conv_coe_words (fun _ => 5) 1 1 1 1) (num_hex_chars 1)) = none := by
  rfl

/-- C1 amended: for every quantized weight tensor (4-D convolution or 2-D
dense) whose fan-in depth is at least 2 — every real layer of this model;
depth-1 layers hit the missing-semicolon edge of the counterexample — and
whose preamble comments contain no occurrence of the vector keyword,
serializing to the hex memory-image text and re-parsing (locating the
`memory_initialization_vector` payload, splitting on commas, reading each
token as one word and taking, at every address, the byte of output unit `f`
counted MSB-first) reconstructs exactly the signed quantized weight packed
for `(address, f)`: the per-output-unit weight columns are byte-identical. -/
theorem C1_roundtrip_amended :
    (∀ (preamble : List Char) (qw : ℕ → ℤ) (kernel_h kernel_w in_channels num_filters : ℕ),
      1 ≤ num_filters → 2 ≤ kernel_h * kernel_w * in_channels →
      (∀ i, -128 ≤ qw i ∧ qw i ≤ 127) →
      (∀ i, i < preamble.length → stripPrefixCI vectorKw
        ((serialize_coe preamble (conv_coe_words qw kernel_h kernel_w in_channels num_filters)
          (num_hex_chars num_filters)).drop i) = none) →
      ∃ parts : List (List Char),
        parse_coe (serialize_coe preamble
            (conv_coe_words qw kernel_h kernel_w in_channels num_filters)
            (num_hex_chars num_filters)) = some parts ∧
        parts.length = kernel_h * kernel_w * in_channels ∧
        ∀ addr f, addr < kernel_h * kernel_w * in_channels → f < num_filters →
          ∃ lsb msb, hexword_to_bytes (parts.getD addr []) num_filters = some (lsb, msb) ∧
            to_signed8 (msb.getD f 0)
              = qw (conv_weight_index kernel_w in_channels num_filters addr f)) ∧
    (∀ (preamble : List Char) (qw : ℕ → ℤ) (num_inputs num_outputs : ℕ),
      1 ≤ num_outputs → 2 ≤ num_inputs →
      (∀ i, -128 ≤ qw i ∧ qw i ≤ 127) →
      (∀ i, i < preamble.length → stripPrefixCI vectorKw
        ((serialize_coe preamble (dense_coe_words qw num_inputs num_outputs)
          (num_hex_chars num_outputs)).drop i) = none) →
      ∃ parts : List (List Char),
        parse_coe (serialize_coe preamble (dense_coe_words qw num_inputs num_outputs)
            (num_hex_chars num_outputs)) = some parts ∧
        parts.length = num_inputs ∧
        ∀ i o, i < num_inputs → o < num_outputs →
          ∃ lsb msb, hexword_to_bytes (parts.getD i []) num_outputs = some (lsb, msb) ∧
            to_signed8 (msb.getD o 0) = qw (i * num_outputs + o)) := by
  constructor
  · intro preamble qw kh kw cin nf h1 h2 h3 h4
    rw [conv_coe_words_eq] at h4 ⊢
    exact roundtrip_core preamble qw _ _ nf h1 h2 h3 h4
  · intro preamble qw ni no h1 h2 h3 h4
    rw [dense_coe_words_eq] at h4 ⊢
    exact roundtrip_core preamble qw _ _ no h1 h2 h3 h4

/-- C1 amended, witness: a 1×1×2-depth, single-filter convolution layer
with constant quantized weight 5 round-trips through serialize and parse. -/
theorem C1_roundtrip_amended_witness :
    ∃ parts : List (List Char),
      parse_coe (serialize_coe [] (conv_coe_words (fun _ => 5) 1 1 2 1) (num_hex_chars 1))
        = some parts ∧
      parts.length = 1 * 1 * 2 ∧
      ∀ addr f, addr < 1 * 1 * 2 → f < 1 →
        ∃ lsb msb, hexword_to_bytes (parts.getD addr []) 1 = some (lsb, msb) ∧
          to_signed8 (msb.getD f 0) = (fun _ => (5 : ℤ)) (conv_weight_index 1 2 1 addr f) :=
  C1_roundtrip_amended.1 [] (fun _ => 5) 1 1 2 1 (by omega) (by omega)
    (fun _ => ⟨by norm_num, by norm_num⟩) (fun i hi => absurd hi (by simp))

end FPGA
